import Mathlib

open scoped Matrix

/-!
Formal model of the VAR (vector autoregressive) model engine of `scot/varbase.py`
(the SCoT package): Yule-Walker estimation (`from_yw`), companion-matrix stability
analysis (`is_stable`), prediction (`predict`), simulation (`simulate`), model
copying (`copy`), and the Portmanteau whiteness test (`test_whiteness`,
`_calc_q_statistic`).

Conventions of the shallow embedding:
* numpy arrays of rationals stand in for float arrays; all arithmetic is exact `ℚ`.
* 2-D arrays appear either as Mathlib matrices `Matrix (Fin r) (Fin c) ℚ`
  (where linear algebra is needed) or as a shaped record `NArr` / total functions
  `ℕ → ℕ → ℚ` (where loop-by-loop translation is needed).  Total functions carry
  their shape separately; values outside the shape are junk and never compared.
* Python exceptions become `Except PyErr`; `PyErr` carries one constructor per
  exception that the modelled code paths can raise.
* External collaborators that live in this repository but outside `varbase.py`
  (`scot.datatools.acm`, `scot.datatools.atleast_3d`) are either taken as
  parameters of the model or modelled from the spec (marked in doc comments).
* Mutation of numpy arrays is modelled by tagging each array value with an
  identity token `ℕ`; in-place updates keep the token, `.copy()` gets a fresh one.
-/

/-- Claim-level model of the Python exceptions (and of the spec's error taxonomy)
relevant to `varbase.py`.  `uninitializedModelError` is the dedicated invalid-state
error postulated by the spec's error-handling design; no such exception class
exists anywhere in the source, which never raises it. -/
inductive PyErr : Type where
  /-- `ValueError` raised by `from_yw` when `len(acms) != p + 1`.  The spec's
  taxonomy calls this `DimensionMismatchError`. -/
  | valueErrorAcmCount
  /-- `ValueError` raised by `np.hstack`/`np.concatenate` on a shape mismatch
  along the non-concatenated axis. -/
  | valueErrorShapeMismatch
  /-- `LinAlgError` raised by `scipy.linalg.solve` on a singular matrix.  The
  spec's taxonomy calls this `SingularMatrixError`. -/
  | linAlgErrorSingular
  /-- `LinAlgError` raised by `np.linalg.eig` on a non-square array. -/
  | linAlgErrorNonSquare
  /-- `AttributeError` raised when an attribute (such as `.copy`) is looked up
  on `None`. -/
  | attributeErrorNoneType
  /-- Failure of a Python `assert` statement. -/
  | assertionFailed
  /-- A generic `IndexError`; present so that claims contrasting dedicated
  errors with index errors can be stated.  No modelled path produces it except
  the unreachable empty-list arm of `from_yw_tagged`. -/
  | indexError
  /-- The spec taxonomy's `UninitializedModelError`; never raised by the code. -/
  | uninitializedModelError
deriving DecidableEq, Repr

/-- A shaped 2-D numpy array of rationals: `rows`/`cols` describe the extent,
`val` the entries (junk outside the extent). -/
structure NArr : Type where
  rows : ℕ
  cols : ℕ
  val : ℕ → ℕ → ℚ

/-- Model of `np.hstack([a, b])` for 2-D arrays: concatenation along axis 1,
requiring equal extent along axis 0 (`ValueError` otherwise). -/
def hstack2 (a b : NArr) : Except PyErr NArr :=
  if a.rows = b.rows then
    Except.ok ⟨a.rows, a.cols + b.cols,
      fun i j => if j < a.cols then a.val i j else b.val i (j - a.cols)⟩
  else Except.error PyErr.valueErrorShapeMismatch

/-- Model of `np.vstack([a, b])`: concatenation along axis 0, requiring equal
extent along axis 1. -/
def vstack2 (a b : NArr) : Except PyErr NArr :=
  if a.cols = b.cols then
    Except.ok ⟨a.rows + b.rows, a.cols,
      fun i j => if i < a.rows then a.val i j else b.val (i - a.rows) j⟩
  else Except.error PyErr.valueErrorShapeMismatch

/-- Model of `np.hstack` on a list of 2-D arrays (empty input raises). -/
def hstackL (l : List NArr) : Except PyErr NArr :=
  match l with
  | [] => Except.error PyErr.valueErrorShapeMismatch
  | a :: rest => rest.foldl (fun acc b => acc.bind fun x => hstack2 x b) (Except.ok a)

/-- Model of `np.eye(m)`. -/
def eyeA (m : ℕ) : NArr :=
  ⟨m, m, fun i j => if i = j then 1 else 0⟩

/-- Model of `np.zeros((r, c))`. -/
def zerosA (r c : ℕ) : NArr :=
  ⟨r, c, fun _ _ => 0⟩

/-- Model of `scipy.linalg.block_diag(a, b)`. -/
def blockDiagA (a b : NArr) : NArr :=
  ⟨a.rows + b.rows, a.cols + b.cols, fun i j =>
    if i < a.rows then (if j < a.cols then a.val i j else 0)
    else (if j < a.cols then 0 else b.val (i - a.rows) (j - a.cols))⟩

/-- Model of the strided column slice `a[:, start::step]` (`step > 0`): the
resulting extent along axis 1 is `⌈(cols - start) / step⌉`. -/
def sliceStepA (a : NArr) (start step : ℕ) : NArr :=
  ⟨a.rows, (a.cols - start + (step - 1)) / step, fun i j => a.val i (start + j * step)⟩

/-- Shallow embedding of the body of `VARBase.is_stable` up to (and including)
the shape check performed by `np.linalg.eig`: builds the companion matrix `tmp`
from `self.coef`.  The eigenvalue computation itself is not representable
exactly over `ℚ`; every error path of the construction is modelled, which is
all the settled claims need.  Source lines 265-282 of `varbase.py`:
`m, mp = coef.shape; p = mp // m; assert mp == m*p`;
`top_block = hstack([coef[:, i::p] for i in range(p)])`;
`im = eye(m); for i in range(p-2): eye_block = block_diag(im, eye_block)`;
`eye_block = hstack([eye_block, zeros((m*(p-1), m))])`;
`tmp = vstack([top_block, eye_block])`; then `eig(tmp)`. -/
def is_stable_tmp (coef : NArr) : Except PyErr NArr := do
  let m := coef.rows
  let mp := coef.cols
  let p := mp / m
  if mp ≠ m * p then throw PyErr.assertionFailed
  let top ← hstackL ((List.range p).map fun i => sliceStepA coef i p)
  let im := eyeA m
  let eyeBlock := (List.range (p - 2)).foldl (fun eb _ => blockDiagA im eb) im
  let eyeBlock ← hstack2 eyeBlock (zerosA (m * (p - 1)) m)
  let tmp ← vstack2 top eyeBlock
  if tmp.rows ≠ tmp.cols then throw PyErr.linAlgErrorNonSquare
  return tmp

/-- The concrete coefficient matrix of the C1 scenario: `m = 2`, `p = 1`,
`coef = [[0.5, 0], [0, 0.5]]`. -/
def c1Coef : NArr :=
  ⟨2, 2, fun i j => if i = j then (1 : ℚ) / 2 else 0⟩

/-- Model of the mutable state of a `VARBase` object relevant to `copy`:
`p` plus the three array fields, each either `None` or an identity-tagged
value (`fit`/`from_yw`/`simulate` set them; the constructor leaves them `None`).
The value types are parameters because `copy` is agnostic in them. -/
structure VarModelG (A B C : Type) : Type where
  p : ℕ
  coef : Option (ℕ × A)
  residuals : Option (ℕ × B)
  rescov : Option (ℕ × C)
deriving DecidableEq

/-- Shallow embedding of `VARBase.copy` (source lines 74-80):
`other = self.__class__(self.p)` (fresh object, array fields `None`), then
`other.coef = self.coef.copy()` and likewise for `residuals` and `rescov`, in
that order.  When a field is `None`, the attribute lookup `None.copy` raises
`AttributeError` before anything else happens.  `np.ndarray.copy` yields a new
array (fresh identity tokens `fresh`, `fresh + 1`, `fresh + 2`) with equal
contents. -/
def VarModelG.copy {A B C : Type} (self : VarModelG A B C) (fresh : ℕ) :
    Except PyErr (VarModelG A B C) :=
  match self.coef with
  | none => Except.error PyErr.attributeErrorNoneType
  | some (_, cv) =>
    match self.residuals with
    | none => Except.error PyErr.attributeErrorNoneType
    | some (_, rv) =>
      match self.rescov with
      | none => Except.error PyErr.attributeErrorNoneType
      | some (_, rcv) =>
        Except.ok ⟨self.p, some (fresh, cv), some (fresh + 1, rv), some (fresh + 2, rcv)⟩

/-- An unfit model (fresh from the constructor: all three array fields `None`),
used as the concrete input refuting claim C7's error class. -/
def c7Unfit : VarModelG Unit Unit Unit :=
  ⟨3, none, none, none⟩

/-- A fully fitted concrete model used by the C7 witness. -/
def c7Fitted : VarModelG ℚ ℚ ℚ :=
  ⟨2, some (0, 5), some (1, 6), some (2, 7)⟩

/-- Computable matrix inverse over `ℚ` (model of what `scipy.linalg.solve`
computes on a nonsingular system): `A⁻¹ = det⁻¹ • adjugate A`.  Agrees with the
true inverse whenever `det A ≠ 0`; junk otherwise (the modelled code only uses
it behind a singularity check). -/
def qInv {n : ℕ} (A : Matrix (Fin n) (Fin n) ℚ) : Matrix (Fin n) (Fin n) ℚ :=
  A.det⁻¹ • A.adjugate

/-- The `acm` lambda of `from_yw` (source line 137):
`acm = lambda l: acms[l] if l >= 0 else acms[-l].T`, over a list of
autocorrelation matrices (list indexing modelled totally by `getD` with a zero
default; all modelled call sites index within bounds once the length check has
passed). -/
def acmF {m : ℕ} (acms : List (Matrix (Fin m) (Fin m) ℚ)) (l : ℤ) :
    Matrix (Fin m) (Fin m) ℚ :=
  if 0 ≤ l then acms.getD l.toNat 0 else (acms.getD (-l).toNat 0)ᵀ

/-- The block-Toeplitz normal-equations matrix `rr` of `from_yw` (source lines
141-143): after the two `np.concatenate` calls, entry `(I, J)` of the
`(p·m) × (p·m)` array is `acm(I/m - J/m)[I%m, J%m]`. -/
def rrM (p m : ℕ) (acms : List (Matrix (Fin m) (Fin m) ℚ)) :
    Matrix (Fin (p * m)) (Fin (p * m)) ℚ :=
  Matrix.of fun I J =>
    acmF acms ((((I : ℕ) / m : ℕ) : ℤ) - (((J : ℕ) / m : ℕ) : ℤ))
      ⟨(I : ℕ) % m, Nat.mod_lt _ (by
        rcases Nat.eq_zero_or_pos m with h | h
        · exact absurd I.isLt (by simp [h])
        · exact h)⟩
      ⟨(J : ℕ) % m, Nat.mod_lt _ (by
        rcases Nat.eq_zero_or_pos m with h | h
        · exact absurd J.isLt (by simp [h])
        · exact h)⟩

/-- The right-hand side `r = np.concatenate(acms[1:], 0)` of `from_yw` (source
line 139): row block `a` of the `(p·m) × m` array is `acms[a + 1]`. -/
def rM (p m : ℕ) (acms : List (Matrix (Fin m) (Fin m) ℚ)) :
    Matrix (Fin (p * m)) (Fin m) ℚ :=
  Matrix.of fun I j =>
    acms.getD ((I : ℕ) / m + 1) 0
      ⟨(I : ℕ) % m, Nat.mod_lt _ (by
        rcases Nat.eq_zero_or_pos m with h | h
        · exact absurd I.isLt (by simp [h])
        · exact h)⟩ j

/-- The solution `c = sp.linalg.solve(rr, r)` of `from_yw` (source line 145),
as computed when `rr` is nonsingular. -/
def cSol (p m : ℕ) (acms : List (Matrix (Fin m) (Fin m) ℚ)) :
    Matrix (Fin (p * m)) (Fin m) ℚ :=
  qInv (rrM p m acms) * rM p m acms

/-- Row block `k` of the solved system: `c[k*m : k*m + m, :]` (the slice taken
at source lines 150-151 with `bs = k * n_channels`). -/
def cBlock (p m : ℕ) (c : Matrix (Fin (p * m)) (Fin m) ℚ) (k : Fin p) :
    Matrix (Fin m) (Fin m) ℚ :=
  Matrix.of fun i j =>
    c ⟨(k : ℕ) * m + (i : ℕ), by
      calc (k : ℕ) * m + (i : ℕ) < (k : ℕ) * m + m := by omega
      _ = ((k : ℕ) + 1) * m := by ring
      _ ≤ p * m := Nat.mul_le_mul_right m (by omega)⟩ j

/-- The residual covariance loop of `from_yw` (source lines 148-151):
`r = acm(0); for k in range(p): r -= c[k*m : k*m+m, :].T @ acm(k + 1)`. -/
def rescovVal (p m : ℕ) (acms : List (Matrix (Fin m) (Fin m) ℚ)) :
    Matrix (Fin m) (Fin m) ℚ :=
  (List.finRange p).foldl
    (fun r k => r - (cBlock p m (cSol p m acms) k)ᵀ * acms.getD ((k : ℕ) + 1) 0)
    (acms.getD 0 0)

/-- The coefficient reassembly of `from_yw` (source lines 153-154):
`coef = np.concatenate([c[j::n_channels, :] for j in range(n_channels)]).T`.
Row `q` of the concatenation (with `q = j * p + k`) is row `j + k * m` of `c`;
after transposition, entry `(i, q)` of the `m × (m·p)` result is
`c[(q % p) * m + q / p, i]`. -/
def coefM (p m : ℕ) (c : Matrix (Fin (p * m)) (Fin m) ℚ) :
    Matrix (Fin m) (Fin (m * p)) ℚ :=
  Matrix.of fun i q =>
    c ⟨((q : ℕ) % p) * m + (q : ℕ) / p, by
      have hq := q.isLt
      have hp : 0 < p := by
        rcases Nat.eq_zero_or_pos p with h | h
        · subst h; omega
        · exact h
      have h1 : (q : ℕ) % p < p := Nat.mod_lt _ hp
      have h2 : (q : ℕ) / p < m := Nat.div_lt_of_lt_mul
        (by first
          | exact hq
          | exact Nat.lt_of_lt_of_le hq (Nat.le_of_eq (Nat.mul_comm m p)))
      have h4 : ((q : ℕ) % p + 1) * m ≤ p * m :=
        mul_le_mul_right' (Nat.succ_le_of_lt h1) m
      have h5 : ((q : ℕ) % p) * m + m ≤ p * m := by
        rw [Nat.succ_mul] at h4; exact h4
      omega⟩ i

/-- The strided lag-block accessor `coef[:, off::p]` on an `m × (m·p)`
coefficient matrix (`off = k - 1` selects the lag-`k` block); entry `(i, j)` is
`coef[i, off + j * p]`. -/
def lagBlock (p m : ℕ) (cf : Matrix (Fin m) (Fin (m * p)) ℚ) (off : ℕ)
    (hoff : off < p) : Matrix (Fin m) (Fin m) ℚ :=
  Matrix.of fun i j =>
    cf i ⟨off + (j : ℕ) * p, by
      calc off + (j : ℕ) * p < p + (j : ℕ) * p := by omega
      _ = ((j : ℕ) + 1) * p := by ring
      _ ≤ m * p := Nat.mul_le_mul_right p (by omega)⟩

/-- Shallow embedding of `VARBase.from_yw` (source lines 114-156), value level:
the length check (`ValueError` when `len(acms) != p + 1`), the singularity
check of `sp.linalg.solve` (`LinAlgError`), then the pair
`(self.coef, self.rescov)` that a successful call stores. -/
def from_yw (p m : ℕ) (acms : List (Matrix (Fin m) (Fin m) ℚ)) :
    Except PyErr (Matrix (Fin m) (Fin (m * p)) ℚ × Matrix (Fin m) (Fin m) ℚ) :=
  if acms.length ≠ p + 1 then Except.error PyErr.valueErrorAcmCount
  else if (rrM p m acms).det = 0 then Except.error PyErr.linAlgErrorSingular
  else Except.ok (coefM p m (cSol p m acms), rescovVal p m acms)

/-- Result record of the identity-tagged model of `from_yw`: the stored
coefficient and residual-covariance arrays with their identity tokens, plus the
caller's autocorrelation sequence as it stands after the call. -/
structure YWFitEffect (p m : ℕ) : Type where
  coefId : ℕ
  coefVal : Matrix (Fin m) (Fin (m * p)) ℚ
  rescovId : ℕ
  rescovArr : Matrix (Fin m) (Fin m) ℚ
  acmsAfter : List (ℕ × Matrix (Fin m) (Fin m) ℚ)

/-- Identity-tagged embedding of `VARBase.from_yw`, tracking aliasing and
in-place mutation.  `r = acm(0)` (source line 148) binds `r` to the very array
object `acms[0]`; the loop's `r -= np.dot(...)` (line 151) subtracts in place,
so the caller's first matrix ends up holding the residual covariance, and
`self.rescov = r` (line 155) stores that same object (same identity token).
`self.coef` (lines 153-154) is built from fresh `np.concatenate` output
(`freshId`).  The empty-list arm is unreachable once the length check has
passed (`p + 1 ≥ 1`). -/
def from_yw_tagged (p m : ℕ) (tacms : List (ℕ × Matrix (Fin m) (Fin m) ℚ))
    (freshId : ℕ) : Except PyErr (YWFitEffect p m) :=
  let acms := tacms.map Prod.snd
  if tacms.length ≠ p + 1 then Except.error PyErr.valueErrorAcmCount
  else if (rrM p m acms).det = 0 then Except.error PyErr.linAlgErrorSingular
  else
    match tacms with
    | [] => Except.error PyErr.indexError
    | (i0, _) :: rest =>
      Except.ok
        { coefId := freshId
          coefVal := coefM p m (cSol p m acms)
          rescovId := i0
          rescovArr := rescovVal p m acms
          acmsAfter := (i0, rescovVal p m acms) :: rest }

/-- Concrete lag-0 autocorrelation matrix for the Yule-Walker witnesses. -/
def ywA0 : Matrix (Fin 1) (Fin 1) ℚ :=
  Matrix.of fun _ _ => 1

/-- Concrete lag-1 autocorrelation matrix for the Yule-Walker witnesses. -/
def ywA1 : Matrix (Fin 1) (Fin 1) ℚ :=
  Matrix.of fun _ _ => 1 / 2

/-- A trial tensor as a total function `(trial, channel, sample) ↦ value`
(extents are carried separately; entries outside them are junk). -/
abbrev Tensor3 : Type := ℕ → ℕ → ℕ → ℚ

/-- A shaped 3-D numpy array: extents `d0, d1, d2` plus total-function values. -/
structure Arr3 : Type where
  d0 : ℕ
  d1 : ℕ
  d2 : ℕ
  val : Tensor3

/-- The numpy shape tuple of a 3-D array, as a list. -/
def arrShape (a : Arr3) : List ℕ :=
  [a.d0, a.d1, a.d2]

/-- Input to `predict`: either a rank-2 `(channels, samples)` array or a rank-3
`(trials, channels, samples)` array, as allowed by the source docstring. -/
inductive VarData : Type where
  | two (m l : ℕ) (v : ℕ → ℕ → ℚ)
  | three (t m l : ℕ) (v : Tensor3)

/-- The numpy shape tuple of a `VarData` input. -/
def dataShape : VarData → List ℕ
  | .two m l _ => [m, l]
  | .three t m l _ => [t, m, l]

/-- Modelled from the spec: `atleast_3d` (in `scot.datatools`, which is not
under `src/`) promotes a 2-D `(channels, samples)` array to the trial tensor
`(1, channels, samples)` and leaves 3-D input unchanged. -/
def atleast3d : VarData → Arr3
  | .two m l v => ⟨1, m, l, fun _ i n => v i n⟩
  | .three t m l v => ⟨t, m, l, v⟩

/-- First loop strategy of `VARBase.predict` (source lines 237-241), taken when
`t > l - p`: for `k` in `1..p` with `bp = coef[:, (k-1)::p]`, for `n` in
`range(p, l)`, do `y[:, :, n] += data[:, :, n-k] @ bp.T` (which touches exactly
the cells with `s < t`, `i < m`). -/
def predictB1 (t mch l p : ℕ) (coef : ℕ → ℕ → ℚ) (v : Tensor3) : Tensor3 :=
  (List.range' 1 p).foldl
    (fun y k =>
      (List.range' p (l - p)).foldl
        (fun y2 n => fun s i nn =>
          if nn = n ∧ s < t ∧ i < mch then
            y2 s i nn + ∑ j ∈ Finset.range mch, v s j (n - k) * coef i ((k - 1) + j * p)
          else y2 s i nn)
        y)
    (fun _ _ _ => 0)

/-- Second loop strategy of `VARBase.predict` (source lines 242-246), taken when
`t ≤ l - p`: for `k` in `1..p` with `bp = coef[:, (k-1)::p]`, for each trial
`s`, do `y[s, :, p:] += bp @ data[s, :, (p-k):(l-k)]` (touching the cells with
`i < m`, `p ≤ n < l`; position `n` of the slice reads `data[s, :, n-k]`).
The slice translation assumes the nonnegative-stop regime `p ≤ l`; `predict`
only selects this branch when `t ≤ l - p`, which forces `l ≥ p + t ≥ p`. -/
def predictB2 (t mch l p : ℕ) (coef : ℕ → ℕ → ℚ) (v : Tensor3) : Tensor3 :=
  (List.range' 1 p).foldl
    (fun y k =>
      (List.range t).foldl
        (fun y2 s => fun ss i nn =>
          if ss = s ∧ i < mch ∧ p ≤ nn ∧ nn < l then
            y2 ss i nn + ∑ j ∈ Finset.range mch, coef i ((k - 1) + j * p) * v s j (nn - k)
          else y2 ss i nn)
        y)
    (fun _ _ _ => 0)

/-- Shallow embedding of `VARBase.predict` (source lines 212-248):
`data = atleast_3d(data); t, m, l = data.shape; p = coef.shape[1] // m;
y = zeros(data.shape)`, then one of the two loop strategies depending on
`t > l - p` (an `int` comparison, hence evaluated over `ℤ`). -/
def predict (coefCols : ℕ) (coef : ℕ → ℕ → ℚ) (d : VarData) : Arr3 :=
  let a := atleast3d d
  let t := a.d0
  let mch := a.d1
  let l := a.d2
  let p := coefCols / mch
  ⟨t, mch, l,
    if (t : ℤ) > (l : ℤ) - (p : ℤ) then predictB1 t mch l p coef a.val
    else predictB2 t mch l p coef a.val⟩

/-- Closed form of both predict strategies: zero during the warm-up `n < p`
(and outside the array extent), and
`∑ k ∈ 1..p, coef_block(k) · data[:, :, n-k]` for `p ≤ n < l`. -/
def predictClosed (t mch l p : ℕ) (coef : ℕ → ℕ → ℚ) (v : Tensor3) : Tensor3 :=
  fun s i nn =>
    if s < t ∧ i < mch ∧ p ≤ nn ∧ nn < l then
      ∑ k ∈ Finset.Icc 1 p, ∑ j ∈ Finset.range mch, coef i ((k - 1) + j * p) * v s j (nn - k)
    else 0

/-- The lag sum read by one simulation step (source lines 204-205):
`∑ k in 1..p, coef[:, (k-1)::p] @ y[i-k, :, s]`, at channel `ch` (the outer sum
is re-indexed by `k ↦ k + 1` over `range p`). -/
def simRead (mch p : ℕ) (coef : ℕ → ℕ → ℚ) (y : ℕ → ℕ → ℚ) (i ch : ℕ) : ℚ :=
  ∑ k ∈ Finset.range p, ∑ j ∈ Finset.range mch, coef ch (k + j * p) * y (i - (k + 1)) j

/-- Warm-start write of `simulate` (source lines 196-199): `y[i, :, s] = e`. -/
def simUpdWarm (noiseT : ℕ → ℕ → ℚ) (y : ℕ → ℕ → ℚ) (i : ℕ) : ℕ → ℕ → ℚ :=
  fun ii ch => if ii = i then noiseT i ch else y ii ch

/-- Main recursion write of `simulate` (source lines 200-205):
`y[i, :, s] = e; for k in range(1, p+1): y[i, :, s] += bp(k) @ y[i-k, :, s]`. -/
def simUpdMain (mch p : ℕ) (coef : ℕ → ℕ → ℚ) (noiseT : ℕ → ℕ → ℚ)
    (y : ℕ → ℕ → ℚ) (i : ℕ) : ℕ → ℕ → ℚ :=
  fun ii ch => if ii = i then noiseT i ch + simRead mch p coef y i ch else y ii ch

/-- One trial of the `simulate` forward recursion (source lines 195-205), as the
fold of the per-sample writes over `range(p)` then `range(p, n)`; `noiseT i` is
the fresh noise vector drawn at step `i` of this trial. -/
def simTrialY (mch p : ℕ) (coef : ℕ → ℕ → ℚ) (noiseT : ℕ → ℕ → ℚ) (n : ℕ) :
    ℕ → ℕ → ℚ :=
  (List.range' p (n - p)).foldl (simUpdMain mch p coef noiseT)
    ((List.range p).foldl (simUpdWarm noiseT) fun _ _ => 0)

/-- Model of the slice `a[off:, :, :]` of a 3-D array. -/
def sliceFrom0 (a : Arr3) (off : ℕ) : Arr3 :=
  ⟨a.d0 - off, a.d1, a.d2, fun i j k => a.val (i + off) j k⟩

/-- Model of `a.transpose([2, 1, 0])` for a 3-D array. -/
def transpose210 (a : Arr3) : Arr3 :=
  ⟨a.d2, a.d1, a.d0, fun i j k => a.val k j i⟩

/-- The sample count requested from `simulate` (`l, t = l` when a pair is
passed, source lines 181-184). -/
def simLen : ℕ ⊕ ℕ × ℕ → ℕ
  | .inl a => a
  | .inr (a, _) => a

/-- The trial count requested from `simulate` (defaults to 1). -/
def simTrials : ℕ ⊕ ℕ × ℕ → ℕ
  | .inl _ => 1
  | .inr (_, b) => b

/-- Shallow embedding of `VARBase.simulate` (source lines 158-210), return
value only: `m, cols = coef.shape; p = cols // m; n = l + 10*p`; per trial the
forward recursion fills `y` of shape `(n, m, t)` (the noise stream `noiseD` is
consumed sequentially, so trial `s` uses draws `s*n .. s*n + n - 1`); the first
`10*p` burn-in samples are dropped and the result transposed to
`(t, m, l)`.  The `residuals`/`rescov` side effects are outside the settled
claims and not modelled. -/
def simulate (mch coefCols : ℕ) (coef : ℕ → ℕ → ℚ) (lt : ℕ ⊕ ℕ × ℕ)
    (noiseD : ℕ → ℕ → ℚ) : Arr3 :=
  let p := coefCols / mch
  let l := simLen lt
  let t := simTrials lt
  let n := l + 10 * p
  let y : Arr3 :=
    ⟨n, mch, t, fun i ch s => simTrialY mch p coef (fun ii cc => noiseD (s * n + ii) cc) n i ch⟩
  transpose210 (sliceFrom0 y (10 * p))

/-- The per-lag trace term of `_calc_q_statistic` (source lines 450-455):
`a = lu_solve(c0f, cl); b = lu_solve(c0f, cl.T); tmp = (a @ b).trace()`, with
the LU solve modelled as left multiplication by `c0⁻¹` and the per-lag
autocovariances `acmf` (the external collaborator `acm(x, l)`) a parameter. -/
def qTmp (mch : ℕ) (acmf : ℕ → Matrix (Fin mch) (Fin mch) ℚ) (l : ℕ) : ℚ :=
  ((qInv (acmf 0) * acmf l) * (qInv (acmf 0) * (acmf l)ᵀ)).trace

/-- State of the `q` array of `_calc_q_statistic` after the main loop (source
lines 448-464): row 0 and row 2 hold `tmp`, row 1 holds `tmp / (nt - l)`, for
`1 ≤ l ≤ h`; everything else is zero. -/
def qStage (mch : ℕ) (acmf : ℕ → Matrix (Fin mch) (Fin mch) ℚ) (h nt : ℕ) :
    Fin 3 → ℕ → ℚ :=
  fun r l =>
    if 1 ≤ l ∧ l ≤ h then
      (if r = 1 then qTmp mch acmf l / ((nt : ℚ) - (l : ℚ)) else qTmp mch acmf l)
    else 0

/-- State after the scalings `q *= nt; q[1, :] *= (nt + 2)` (lines 466-467). -/
def qScaled (mch : ℕ) (acmf : ℕ → Matrix (Fin mch) (Fin mch) ℚ) (h nt : ℕ) :
    Fin 3 → ℕ → ℚ :=
  fun r l => qStage mch acmf h nt r l * (nt : ℚ) * (if r = 1 then (nt : ℚ) + 2 else 1)

/-- State after `q = np.cumsum(q, axis=1)` (line 469). -/
def qCum (mch : ℕ) (acmf : ℕ → Matrix (Fin mch) (Fin mch) ℚ) (h nt : ℕ) :
    Fin 3 → ℕ → ℚ :=
  fun r l => ∑ j ∈ Finset.range (l + 1), qScaled mch acmf h nt r j

/-- Shallow embedding of `_calc_q_statistic` (source lines 437-474): the final
`q` array after the row-2 overwrite
`q[2, l] = q[0, l] + m*m*l*(l+1)/(2*nt)` for `1 ≤ l ≤ h` (lines 471-472). -/
def calc_q_statistic (mch : ℕ) (acmf : ℕ → Matrix (Fin mch) (Fin mch) ℚ)
    (h nt : ℕ) : Fin 3 → ℕ → ℚ :=
  fun r l =>
    if r = 2 ∧ 1 ≤ l ∧ l ≤ h then
      qCum mch acmf h nt 0 l + (mch : ℚ) * (mch : ℚ) * (l : ℚ) * ((l : ℚ) + 1) / (2 * (nt : ℚ))
    else qCum mch acmf h nt r l

/-- The trim `res = data[:, :, p:]` of `test_whiteness` (source line 419). -/
def trimP (p : ℕ) (data : Tensor3) : Tensor3 :=
  fun s ch j => data s ch (j + p)

/-- One surrogate draw `rng.permutation(x.T).T` (source line 482): the time
axis is reordered by `perm`, identically across channels and trials. -/
def permuteTime (perm : ℕ → ℕ) (x : Tensor3) : Tensor3 :=
  fun s ch j => x s ch (perm j)

/-- The count `np.sum(q0 >= q)` of `test_whiteness` (source line 429): how many
surrogate Li-McLeod statistics (row 2, final lag `h`) reach the observed one.
`data` has shape `(t, mch, n0)`; `perms i` is the time permutation of surrogate
`i`; `acmExt` is the external autocovariance collaborator `acm`. -/
def whitenessCount (t mch n0 h p repeats : ℕ) (data : Tensor3)
    (perms : ℕ → ℕ → ℕ)
    (acmExt : Tensor3 → ℕ → Matrix (Fin mch) (Fin mch) ℚ) : ℕ :=
  let res := trimP p data
  let n := n0 - p
  let nt := (n - p) * t
  let q := calc_q_statistic mch (acmExt res) h nt 2 h
  ((Finset.range repeats).filter fun i =>
    q ≤ calc_q_statistic mch (acmExt (permuteTime (perms i) res)) h nt 2 h).card

/-- Shallow embedding of `test_whiteness` (source lines 363-434), p-value only:
`res = data[:, :, p:]; t, m, n = res.shape; nt = (n - p) * t;` surrogate and
observed Li-McLeod statistics at lag `h`; `pr = np.sum(q0 >= q) / repeats`. -/
def test_whiteness (t mch n0 h p repeats : ℕ) (data : Tensor3)
    (perms : ℕ → ℕ → ℕ)
    (acmExt : Tensor3 → ℕ → Matrix (Fin mch) (Fin mch) ℚ) : ℚ :=
  (whitenessCount t mch n0 h p repeats data perms acmExt : ℚ) / (repeats : ℚ)

/-- A 1-channel order-1 coefficient function with value `1/2` (shape `(1, 1)`),
used by several concrete witnesses. -/
def wCoefHalf : ℕ → ℕ → ℚ :=
  fun _ _ => 1 / 2

/-- A concrete rank-2 `(channels, samples) = (1, 2)` input of ones. -/
def wData2 : VarData :=
  VarData.two 1 2 fun _ _ => 1

/-- A concrete rank-3 `(1, 1, 3)` input with samples `1, 2, 3`. -/
def wData3 : VarData :=
  VarData.three 1 1 3 fun _ _ n => (n : ℚ) + 1

/-- A constant unit noise stream for the simulation witness. -/
def wNoise : ℕ → ℕ → ℚ :=
  fun _ _ => 1

/-- A constant `1 × 1` autocovariance collaborator for the whiteness witnesses. -/
def wAcm1 : ℕ → Matrix (Fin 1) (Fin 1) ℚ :=
  fun _ => Matrix.of fun _ _ => 1

/-- A constant external `acm` collaborator for the whiteness witnesses. -/
def wAcmExt : Tensor3 → ℕ → Matrix (Fin 1) (Fin 1) ℚ :=
  fun _ _ => Matrix.of fun _ _ => 1

/-- An all-zero data tensor for the whiteness witnesses. -/
def wZeroT : Tensor3 :=
  fun _ _ _ => 0

/-- Generic fold lemma: folding a step that adds a state-independent increment
`D a` pointwise accumulates the list sum of the increments. -/
theorem foldl_step_add {α : Type} (st : Tensor3 → α → Tensor3) (D : α → Tensor3)
    (hst : ∀ y a s i nn, st y a s i nn = y s i nn + D a s i nn) :
    ∀ (ks : List α) (y : Tensor3) (s i nn : ℕ),
      ks.foldl st y s i nn = y s i nn + ((ks.map fun a => D a s i nn).sum) := by
  intro ks
  induction ks with
  | nil => intro y s i nn; simp
  | cons a ks ih =>
    intro y s i nn
    rw [List.foldl_cons, ih, hst, List.map_cons, List.sum_cons, add_assoc]

/-- Summing `if nn = n ∧ C then f n else 0` over a duplicate-free list picks out
the single term at `nn` when present. -/
theorem sum_map_ite_mem (nn : ℕ) (C : Prop) [Decidable C] (f : ℕ → ℚ) :
    ∀ ns : List ℕ, ns.Nodup →
      ((ns.map fun n => if nn = n ∧ C then f n else 0).sum)
        = if nn ∈ ns ∧ C then f nn else 0 := by
  intro ns
  induction ns with
  | nil => intro _; simp
  | cons a ns ih =>
    intro hnd
    have hnd' := List.nodup_cons.mp hnd
    rw [List.map_cons, List.sum_cons, ih hnd'.2]
    by_cases ha : nn = a
    · subst ha
      by_cases hC : C
      · simp [hC, hnd'.1]
      · simp [hC]
    · by_cases hC : C <;> simp [ha, hC, List.mem_cons]

/-- A condition independent of the summation variable factors out of a list sum
of guarded terms. -/
theorem sum_map_ite_const {α : Type} (ks : List α) (C : Prop) [Decidable C]
    (f : α → ℚ) :
    ((ks.map fun a => if C then f a else 0).sum) = if C then ((ks.map f).sum) else 0 := by
  by_cases hC : C <;> simp [hC]

/-- Sums over `List.range` agree with sums over `Finset.range`. -/
theorem list_range_map_sum (g : ℕ → ℚ) :
    ∀ n : ℕ, ((List.range n).map g).sum = ∑ i ∈ Finset.range n, g i := by
  intro n
  induction n with
  | zero => simp
  | succ n ih =>
    rw [List.range_succ, List.map_append, List.sum_append, Finset.sum_range_succ, ih]
    simp

/-- Re-indexing a sum over `1..p` as a shifted sum over `range p`. -/
theorem sum_Icc_one_shift (f : ℕ → ℚ) :
    ∀ p : ℕ, ∑ k ∈ Finset.Icc 1 p, f k = ∑ i ∈ Finset.range p, f (1 + i) := by
  intro p
  induction p with
  | zero => simp
  | succ p ih =>
    rw [Finset.sum_Icc_succ_top (Nat.succ_le_succ (Nat.zero_le p)), ih,
      Finset.sum_range_succ, Nat.add_comm 1 p]

/-- Sums over the list `range' 1 p` agree with sums over `Finset.Icc 1 p`. -/
theorem range'_one_map_sum (f : ℕ → ℚ) (p : ℕ) :
    ((List.range' 1 p).map f).sum = ∑ k ∈ Finset.Icc 1 p, f k := by
  rw [List.range'_eq_map_range, List.map_map, list_range_map_sum, sum_Icc_one_shift]
  rfl

/-- Folding iterated subtraction subtracts the list sum. -/
theorem foldl_sub_eq {M : Type} [AddCommGroup M] {α : Type} (f : α → M) :
    ∀ (l : List α) (init : M),
      (l.foldl (fun r a => r - f a) init) = init - (l.map f).sum := by
  intro l
  induction l with
  | nil => intro init; simp
  | cons a l ih =>
    intro init
    rw [List.foldl_cons, ih, List.map_cons, List.sum_cons, sub_sub]

/-- The strided slice `coef[:, off::p]` of the reassembled Yule-Walker
coefficient matrix is the transpose of row block `off` of the solved system. -/
theorem lagBlock_coefM (p m : ℕ) (c : Matrix (Fin (p * m)) (Fin m) ℚ)
    (off : ℕ) (hoff : off < p) :
    lagBlock p m (coefM p m c) off hoff = (cBlock p m c ⟨off, hoff⟩)ᵀ := by
  have hp : 0 < p := Nat.lt_of_le_of_lt (Nat.zero_le off) hoff
  ext i j
  simp only [lagBlock, coefM, cBlock, Matrix.of_apply, Matrix.transpose_apply]
  have hA : (off + (j : ℕ) * p) % p = off := by
    rw [Nat.add_mul_mod_self_right]
    exact Nat.mod_eq_of_lt hoff
  have hB : (off + (j : ℕ) * p) / p = (j : ℕ) := by
    rw [Nat.add_mul_div_right _ _ hp, Nat.div_eq_of_lt hoff, Nat.zero_add]
  have hidx : ((off + (j : ℕ) * p) % p) * m + (off + (j : ℕ) * p) / p
      = off * m + (j : ℕ) := by
    rw [hA, hB]
  exact congrFun (congrArg c (Fin.ext hidx)) i

/-- The residual-covariance fold of `from_yw` closed form:
`acm(0) - ∑ k in range p, C_block(k)ᵀ · acm(k + 1)`. -/
theorem rescovVal_eq (p m : ℕ) (acms : List (Matrix (Fin m) (Fin m) ℚ)) :
    rescovVal p m acms
      = acms.getD 0 0
        - ∑ k : Fin p, (cBlock p m (cSol p m acms) k)ᵀ * acms.getD ((k : ℕ) + 1) 0 := by
  unfold rescovVal
  rw [foldl_sub_eq
    (fun k : Fin p => (cBlock p m (cSol p m acms) k)ᵀ * acms.getD ((k : ℕ) + 1) 0)]
  rw [← Fin.sum_univ_def]

/-- Collapsing the cumulative sum of `1 ≤ j ≤ h`-guarded terms at `l ≤ h`. -/
theorem sum_range_guard (f : ℕ → ℚ) (h : ℕ) :
    ∀ l : ℕ, l ≤ h →
      (∑ j ∈ Finset.range (l + 1), (if 1 ≤ j ∧ j ≤ h then f j else 0))
        = ∑ j ∈ Finset.Icc 1 l, f j := by
  intro l
  induction l with
  | zero => intro _; simp
  | succ l ih =>
    intro hl
    rw [Finset.sum_range_succ, ih (by omega), Finset.sum_Icc_succ_top (by omega),
      if_pos ⟨by omega, hl⟩]

/-- Gauss sum over `1..l`, in `ℚ`. -/
theorem sum_Icc_cast (l : ℕ) :
    ∑ j ∈ Finset.Icc 1 l, (j : ℚ) = (l : ℚ) * ((l : ℚ) + 1) / 2 := by
  induction l with
  | zero => simp
  | succ l ih =>
    rw [Finset.sum_Icc_succ_top (by omega), ih]
    push_cast
    ring

/-- Writes performed on cells `≥ a` leave cells `< a` untouched. -/
theorem foldl_write_stable (U : (ℕ → ℕ → ℚ) → ℕ → (ℕ → ℕ → ℚ))
    (hU : ∀ y i ii ch, ii ≠ i → U y i ii ch = y ii ch) :
    ∀ (b a : ℕ) (y : ℕ → ℕ → ℚ) (ii ch : ℕ), ii < a →
      ((List.range' a b).foldl U y) ii ch = y ii ch := by
  intro b
  induction b with
  | zero => intro a y ii ch _; simp
  | succ b ih =>
    intro a y ii ch hii
    rw [List.range'_succ, List.foldl_cons, ih (a + 1) _ ii ch (by omega),
      hU _ _ _ _ (by omega)]

/-- Fixpoint property of the main simulation fold: every cell written by the
fold holds its fresh noise draw plus the lag sum read from the fold's own final
state (the reads target strictly smaller cells, already final at write time). -/
theorem simMain_value (mch p : ℕ) (coef : ℕ → ℕ → ℚ) (noiseT : ℕ → ℕ → ℚ) :
    ∀ (b a : ℕ) (y : ℕ → ℕ → ℚ) (i ch : ℕ), p ≤ a → a ≤ i → i < a + b →
      ((List.range' a b).foldl (simUpdMain mch p coef noiseT) y) i ch
        = noiseT i ch
          + simRead mch p coef
              ((List.range' a b).foldl (simUpdMain mch p coef noiseT) y) i ch := by
  intro b
  induction b with
  | zero => intro a y i ch hpa h1 h2; omega
  | succ b ih =>
    intro a y i ch hpa h1 h2
    have hstab := foldl_write_stable (simUpdMain mch p coef noiseT)
      (fun y0 i0 ii ch0 hne => by simp [simUpdMain, hne])
    rcases Nat.eq_or_lt_of_le h1 with heq | hlt
    · -- the head write is the cell in question
      subst heq
      rw [List.range'_succ, List.foldl_cons]
      rw [hstab b (a + 1) _ a ch (by omega)]
      simp only [simUpdMain, if_true]
      congr 1
      unfold simRead
      apply Finset.sum_congr rfl
      intro k hk
      apply Finset.sum_congr rfl
      intro j hj
      congr 1
      have hk' := Finset.mem_range.mp hk
      have hcell : a - (k + 1) < a := by omega
      rw [hstab b (a + 1) _ _ j (by omega)]
      simp [simUpdMain, Nat.ne_of_lt hcell]
    · -- the cell lies strictly inside the tail of the fold
      rw [List.range'_succ, List.foldl_cons]
      exact ih (a + 1) _ i ch (by omega) (by omega) (by omega)

/-- Closed form of the first predict loop strategy. -/
theorem predictB1_apply (t mch l p : ℕ) (coef : ℕ → ℕ → ℚ) (v : Tensor3)
    (s i nn : ℕ) :
    predictB1 t mch l p coef v s i nn = predictClosed t mch l p coef v s i nn := by
  have hinner : ∀ (k : ℕ) (y : Tensor3) (s i nn : ℕ),
      ((List.range' p (l - p)).foldl
        (fun y2 n => fun s i nn =>
          if nn = n ∧ s < t ∧ i < mch then
            y2 s i nn + ∑ j ∈ Finset.range mch, v s j (n - k) * coef i ((k - 1) + j * p)
          else y2 s i nn) y) s i nn
        = y s i nn
          + (((List.range' p (l - p)).map fun n =>
              if nn = n ∧ s < t ∧ i < mch then
                (∑ j ∈ Finset.range mch, v s j (n - k) * coef i ((k - 1) + j * p))
              else 0).sum) := by
    intro k y s i nn
    exact foldl_step_add _
      (fun n => fun s i nn =>
        if nn = n ∧ s < t ∧ i < mch then
          (∑ j ∈ Finset.range mch, v s j (n - k) * coef i ((k - 1) + j * p))
        else 0)
      (fun y2 n s i nn => by
        by_cases h : nn = n ∧ s < t ∧ i < mch <;> simp [h]) _ y s i nn
  have houter := foldl_step_add
    (fun y k =>
      (List.range' p (l - p)).foldl
        (fun y2 n => fun s i nn =>
          if nn = n ∧ s < t ∧ i < mch then
            y2 s i nn + ∑ j ∈ Finset.range mch, v s j (n - k) * coef i ((k - 1) + j * p)
          else y2 s i nn) y)
    (fun k => fun s i nn =>
      ((List.range' p (l - p)).map fun n =>
        if nn = n ∧ s < t ∧ i < mch then
          (∑ j ∈ Finset.range mch, v s j (n - k) * coef i ((k - 1) + j * p))
        else 0).sum)
    (fun y k s i nn => hinner k y s i nn)
    (List.range' 1 p) (fun _ _ _ => 0) s i nn
  unfold predictB1
  rw [houter, zero_add]
  have hmap : ((List.range' 1 p).map fun k =>
      ((List.range' p (l - p)).map fun n =>
        if nn = n ∧ s < t ∧ i < mch then
          (∑ j ∈ Finset.range mch, v s j (n - k) * coef i ((k - 1) + j * p))
        else 0).sum)
      = (List.range' 1 p).map fun k =>
        if nn ∈ List.range' p (l - p) ∧ (s < t ∧ i < mch) then
          (∑ j ∈ Finset.range mch, v s j (nn - k) * coef i ((k - 1) + j * p))
        else 0 := by
    apply List.map_congr_left
    intro k _
    exact sum_map_ite_mem nn (s < t ∧ i < mch)
      (fun n => ∑ j ∈ Finset.range mch, v s j (n - k) * coef i ((k - 1) + j * p))
      (List.range' p (l - p)) (List.nodup_range' p (l - p))
  rw [hmap, sum_map_ite_const, range'_one_map_sum]
  have hcond : ((nn ∈ List.range' p (l - p)) ∧ (s < t ∧ i < mch))
      ↔ (s < t ∧ i < mch ∧ p ≤ nn ∧ nn < l) := by
    rw [List.mem_range'_1]
    omega
  unfold predictClosed
  by_cases hc : s < t ∧ i < mch ∧ p ≤ nn ∧ nn < l
  · rw [if_pos (hcond.mpr hc), if_pos hc]
    exact Finset.sum_congr rfl fun k _ => Finset.sum_congr rfl fun j _ => mul_comm _ _
  · rw [if_neg (fun h => hc (hcond.mp h)), if_neg hc]

/-- Closed form of the second predict loop strategy. -/
theorem predictB2_apply (t mch l p : ℕ) (coef : ℕ → ℕ → ℚ) (v : Tensor3)
    (s i nn : ℕ) :
    predictB2 t mch l p coef v s i nn = predictClosed t mch l p coef v s i nn := by
  have hinner : ∀ (k : ℕ) (y : Tensor3) (ss i nn : ℕ),
      ((List.range t).foldl
        (fun y2 sx => fun ss i nn =>
          if ss = sx ∧ i < mch ∧ p ≤ nn ∧ nn < l then
            y2 ss i nn + ∑ j ∈ Finset.range mch, coef i ((k - 1) + j * p) * v sx j (nn - k)
          else y2 ss i nn) y) ss i nn
        = y ss i nn
          + (((List.range t).map fun sx =>
              if ss = sx ∧ i < mch ∧ p ≤ nn ∧ nn < l then
                (∑ j ∈ Finset.range mch, coef i ((k - 1) + j * p) * v sx j (nn - k))
              else 0).sum) := by
    intro k y ss i nn
    exact foldl_step_add _
      (fun sx => fun ss i nn =>
        if ss = sx ∧ i < mch ∧ p ≤ nn ∧ nn < l then
          (∑ j ∈ Finset.range mch, coef i ((k - 1) + j * p) * v sx j (nn - k))
        else 0)
      (fun y2 sx ss i nn => by
        by_cases h : ss = sx ∧ i < mch ∧ p ≤ nn ∧ nn < l <;> simp [h]) _ y ss i nn
  have houter := foldl_step_add
    (fun y k =>
      (List.range t).foldl
        (fun y2 sx => fun ss i nn =>
          if ss = sx ∧ i < mch ∧ p ≤ nn ∧ nn < l then
            y2 ss i nn + ∑ j ∈ Finset.range mch, coef i ((k - 1) + j * p) * v sx j (nn - k)
          else y2 ss i nn) y)
    (fun k => fun ss i nn =>
      ((List.range t).map fun sx =>
        if ss = sx ∧ i < mch ∧ p ≤ nn ∧ nn < l then
          (∑ j ∈ Finset.range mch, coef i ((k - 1) + j * p) * v sx j (nn - k))
        else 0).sum)
    (fun y k ss i nn => hinner k y ss i nn)
    (List.range' 1 p) (fun _ _ _ => 0) s i nn
  unfold predictB2
  rw [houter, zero_add]
  have hmap : ((List.range' 1 p).map fun k =>
      ((List.range t).map fun sx =>
        if s = sx ∧ i < mch ∧ p ≤ nn ∧ nn < l then
          (∑ j ∈ Finset.range mch, coef i ((k - 1) + j * p) * v sx j (nn - k))
        else 0).sum)
      = (List.range' 1 p).map fun k =>
        if s ∈ List.range t ∧ (i < mch ∧ p ≤ nn ∧ nn < l) then
          (∑ j ∈ Finset.range mch, coef i ((k - 1) + j * p) * v s j (nn - k))
        else 0 := by
    apply List.map_congr_left
    intro k _
    exact sum_map_ite_mem s (i < mch ∧ p ≤ nn ∧ nn < l)
      (fun sx => ∑ j ∈ Finset.range mch, coef i ((k - 1) + j * p) * v sx j (nn - k))
      (List.range t) (List.nodup_range t)
  rw [hmap, sum_map_ite_const, range'_one_map_sum]
  have hcond : ((s ∈ List.range t) ∧ (i < mch ∧ p ≤ nn ∧ nn < l))
      ↔ (s < t ∧ i < mch ∧ p ≤ nn ∧ nn < l) := by
    rw [List.mem_range]
  unfold predictClosed
  by_cases hc : s < t ∧ i < mch ∧ p ≤ nn ∧ nn < l
  · rw [if_pos (hcond.mpr hc), if_pos hc]
  · rw [if_neg (fun h => hc (hcond.mp h)), if_neg hc]

/-- Claim C1: the spec asserts that for `m = 2`, `p = 1`,
`coef = [[0.5, 0], [0, 0.5]]`, `is_stable()` returns normally with `True`
(the coefficient matrix itself serving as the companion matrix).  The code
instead crashes: for `p = 1` the `range(p - 2)` loop still leaves one `m × m`
identity block, which `np.hstack` cannot concatenate with the
`(m·(p-1)) × m = 0 × m` zeros block — a `ValueError` is raised before any
eigenvalue is computed.  This theorem evaluates the embedded construction at
exactly the spec's concrete input. -/
theorem c1_is_stable_p1_crashes :
    is_stable_tmp c1Coef = Except.error PyErr.valueErrorShapeMismatch := rfl

/-- Claim C7 counterexample: copying an unfit model (`coef = None`) raises the
`AttributeError` coming from the attribute lookup `None.copy`, not the
dedicated `UninitializedModelError` that the claim asserts. -/
theorem c7_counterexample :
    VarModelG.copy c7Unfit 0 = Except.error PyErr.attributeErrorNoneType
    ∧ VarModelG.copy c7Unfit 0 ≠ Except.error PyErr.uninitializedModelError := by
  constructor
  · rfl
  · intro hcontra
    exact PyErr.noConfusion (Except.error.inj hcontra)

/-- Claim C7 (amended): calling `copy` on a model with `coef` (or `residuals`
or `rescov`) still `None` fails fast with an `AttributeError` from `None.copy`
— not with the spec's dedicated invalid-state `UninitializedModelError`, which
the code never raises; when all three fields are set, the copy duplicates `p`
and owns independent copies of `coef`, `residuals` and `rescov` (fresh array
identities, equal contents). -/
theorem c7_copy_amended {A B C : Type} (self : VarModelG A B C) (fresh : ℕ) :
    ((self.coef = none ∨ self.residuals = none ∨ self.rescov = none) →
      self.copy fresh = Except.error PyErr.attributeErrorNoneType)
    ∧ (∀ ic cv ir rv irc rcv,
        self.coef = some (ic, cv) → self.residuals = some (ir, rv) →
        self.rescov = some (irc, rcv) →
        self.copy fresh
          = Except.ok ⟨self.p, some (fresh, cv), some (fresh + 1, rv), some (fresh + 2, rcv)⟩
        ∧ (ic < fresh → ir < fresh → irc < fresh →
            ({ic, ir, irc} : Finset ℕ) ∩ {fresh, fresh + 1, fresh + 2} = ∅)) := by
  constructor
  · intro hnone
    rcases hcoef : self.coef with _ | ⟨ic, cv⟩
    · simp [VarModelG.copy, hcoef]
    · rcases hres : self.residuals with _ | ⟨ir, rv⟩
      · simp [VarModelG.copy, hcoef, hres]
      · rcases hrc : self.rescov with _ | ⟨irc, rcv⟩
        · simp [VarModelG.copy, hcoef, hres, hrc]
        · rcases hnone with hx | hx | hx <;> simp_all
  · intro ic cv ir rv irc rcv hcoef hres hrc
    constructor
    · simp [VarModelG.copy, hcoef, hres, hrc]
    · intro h1 h2 h3
      ext x
      simp only [Finset.mem_inter, Finset.mem_insert, Finset.mem_singleton,
        Finset.not_mem_empty, iff_false, not_and]
      omega

/-- Claim C7 witness: the amended theorem applied to a concrete fully fitted
model with identities `0, 1, 2` and fresh base `3`. -/
theorem c7_witness :
    VarModelG.copy c7Fitted 3
      = Except.ok ⟨2, some (3, 5), some (4, 6), some (5, 7)⟩
    ∧ ({0, 1, 2} : Finset ℕ) ∩ {3, 4, 5} = ∅ := by
  have h := (c7_copy_amended c7Fitted 3).2 0 5 1 6 2 7 rfl rfl rfl
  exact ⟨h.1, h.2 (by decide) (by decide) (by decide)⟩

/-- Claim C8: `from_yw` with an autocorrelation sequence whose length is not
`p + 1` fails with the dedicated dimension-mismatch `ValueError` (the spec's
`DimensionMismatchError`), raised by the length check before any system is
assembled or solved — in particular it is not a generic `IndexError`. -/
theorem c8_from_yw_length_check (p m : ℕ)
    (acms : List (Matrix (Fin m) (Fin m) ℚ)) (hlen : acms.length ≠ p + 1) :
    from_yw p m acms = Except.error PyErr.valueErrorAcmCount := by
  unfold from_yw
  rw [if_pos hlen]

/-- Claim C8 witness: `p = 2` with only two autocorrelation matrices. -/
theorem c8_witness :
    from_yw 2 1 [ywA0, ywA1] = Except.error PyErr.valueErrorAcmCount :=
  c8_from_yw_length_check 2 1 [ywA0, ywA1] (by decide)

/-- Helper for the Yule-Walker witnesses: the concrete `1 × 1` normal-equations
matrix `rr` built from `[ywA0, ywA1]` is nonsingular. -/
theorem ywDet_ne : (rrM 1 1 [ywA0, ywA1]).det ≠ 0 := by
  have h1 : (rrM 1 1 [ywA0, ywA1]).det = rrM 1 1 [ywA0, ywA1] 0 0 :=
    Matrix.det_fin_one (rrM 1 1 [ywA0, ywA1])
  have h2 : rrM 1 1 [ywA0, ywA1] 0 0 = 1 := by decide
  rw [h1, h2]
  norm_num

/-- Claim C2: on a successful Yule-Walker solve (`len(acms) = p + 1` and the
block-Toeplitz matrix nonsingular), `from_yw` stores the pair
`(coef, rescov)` with `rescov = acm(0) - ∑ k=1..p, C_block(k)ᵀ · acm(k)`
(`C_block(k)` being rows `(k-1)·m .. k·m` of the solved system), and the
reassembled coefficient matrix satisfies the stride contract: for every
`1 ≤ k ≤ p`, the slice `coef[:, (k-1)::p]` equals `C_block(k)ᵀ`, so that the
residual covariance is also `acm(0) - ∑ k, coef_block(k) · acm(k)`. -/
theorem c2_from_yw_rescov_layout (p m : ℕ)
    (acms : List (Matrix (Fin m) (Fin m) ℚ))
    (hlen : acms.length = p + 1) (hdet : (rrM p m acms).det ≠ 0)
    (k : ℕ) (hk1 : 1 ≤ k) (hkp : k ≤ p) :
    from_yw p m acms
      = Except.ok (coefM p m (cSol p m acms), rescovVal p m acms)
    ∧ rescovVal p m acms
      = acms.getD 0 0
        - ∑ kk : Fin p,
            (cBlock p m (cSol p m acms) kk)ᵀ * acms.getD ((kk : ℕ) + 1) 0
    ∧ lagBlock p m (coefM p m (cSol p m acms)) (k - 1) (by omega)
      = (cBlock p m (cSol p m acms) ⟨k - 1, by omega⟩)ᵀ
    ∧ rescovVal p m acms
      = acms.getD 0 0
        - ∑ kk : Fin p,
            lagBlock p m (coefM p m (cSol p m acms)) (kk : ℕ) kk.isLt
              * acms.getD ((kk : ℕ) + 1) 0 := by
  refine ⟨?_, rescovVal_eq p m acms,
    lagBlock_coefM p m (cSol p m acms) (k - 1) (by omega), ?_⟩
  · unfold from_yw
    rw [if_neg (fun hcon => hcon hlen), if_neg hdet]
  · rw [rescovVal_eq p m acms]
    congr 1
    apply Finset.sum_congr rfl
    intro kk _
    rw [lagBlock_coefM p m (cSol p m acms) (kk : ℕ) kk.isLt]

/-- Claim C2 witness: `p = m = 1`, `acm(0) = [[1]]`, `acm(1) = [[1/2]]`. -/
theorem c2_witness :
    from_yw 1 1 [ywA0, ywA1]
      = Except.ok (coefM 1 1 (cSol 1 1 [ywA0, ywA1]), rescovVal 1 1 [ywA0, ywA1])
    ∧ rescovVal 1 1 [ywA0, ywA1]
      = [ywA0, ywA1].getD 0 0
        - ∑ kk : Fin 1,
            (cBlock 1 1 (cSol 1 1 [ywA0, ywA1]) kk)ᵀ * [ywA0, ywA1].getD ((kk : ℕ) + 1) 0
    ∧ lagBlock 1 1 (coefM 1 1 (cSol 1 1 [ywA0, ywA1])) 0 (by omega)
      = (cBlock 1 1 (cSol 1 1 [ywA0, ywA1]) ⟨0, by omega⟩)ᵀ
    ∧ rescovVal 1 1 [ywA0, ywA1]
      = [ywA0, ywA1].getD 0 0
        - ∑ kk : Fin 1,
            lagBlock 1 1 (coefM 1 1 (cSol 1 1 [ywA0, ywA1])) (kk : ℕ) kk.isLt
              * [ywA0, ywA1].getD ((kk : ℕ) + 1) 0 :=
  c2_from_yw_rescov_layout 1 1 [ywA0, ywA1] rfl ywDet_ne 1 le_rfl le_rfl

/-- Claim C10: a successful `from_yw` call mutates the caller's autocorrelation
sequence in place: `r = acm(0)` aliases `acms[0]` and the loop subtracts from
it in place, so on return the first matrix holds its original value minus
`∑ k=1..p, C_block(k)ᵀ · acm(k)` (i.e. it has become the residual covariance),
and the stored `rescov` is that very array (same identity token), not an
independent copy. -/
theorem c10_from_yw_inplace (p m : ℕ) (i0 : ℕ) (v0 : Matrix (Fin m) (Fin m) ℚ)
    (rest : List (ℕ × Matrix (Fin m) (Fin m) ℚ)) (freshId : ℕ)
    (hlen : ((i0, v0) :: rest).length = p + 1)
    (hdet : (rrM p m (((i0, v0) :: rest).map Prod.snd)).det ≠ 0) :
    ∃ fit : YWFitEffect p m,
      from_yw_tagged p m ((i0, v0) :: rest) freshId = Except.ok fit
      ∧ fit.acmsAfter
          = (i0, v0 - ∑ kk : Fin p,
              (cBlock p m (cSol p m (((i0, v0) :: rest).map Prod.snd)) kk)ᵀ
                * (((i0, v0) :: rest).map Prod.snd).getD ((kk : ℕ) + 1) 0) :: rest
      ∧ fit.rescovId = i0
      ∧ fit.rescovArr = (fit.acmsAfter.getD 0 (0, 0)).2 := by
  have hyw : from_yw_tagged p m ((i0, v0) :: rest) freshId
      = Except.ok
          { coefId := freshId
            coefVal := coefM p m (cSol p m (((i0, v0) :: rest).map Prod.snd))
            rescovId := i0
            rescovArr := rescovVal p m (((i0, v0) :: rest).map Prod.snd)
            acmsAfter :=
              (i0, rescovVal p m (((i0, v0) :: rest).map Prod.snd)) :: rest } := by
    unfold from_yw_tagged
    rw [if_neg (fun hcon => hcon hlen), if_neg hdet]
  refine ⟨_, hyw, ?_, rfl, rfl⟩
  rw [rescovVal_eq p m (((i0, v0) :: rest).map Prod.snd)]
  rw [show (((i0, v0) :: rest).map Prod.snd).getD 0 0 = v0 from rfl]

/-- Claim C10 witness: concrete tagged call with identities `7` and `9`. -/
theorem c10_witness :
    ∃ fit : YWFitEffect 1 1,
      from_yw_tagged 1 1 [(7, ywA0), (9, ywA1)] 42 = Except.ok fit
      ∧ fit.acmsAfter
          = (7, ywA0 - ∑ kk : Fin 1,
              (cBlock 1 1 (cSol 1 1 ([(7, ywA0), (9, ywA1)].map Prod.snd)) kk)ᵀ
                * ([(7, ywA0), (9, ywA1)].map Prod.snd).getD ((kk : ℕ) + 1) 0) :: [(9, ywA1)]
      ∧ fit.rescovId = 7
      ∧ fit.rescovArr = (fit.acmsAfter.getD 0 (0, 0)).2 :=
  c10_from_yw_inplace 1 1 7 ywA0 [(9, ywA1)] 42 rfl ywDet_ne

/-- Claim C3 counterexample: for a rank-2 `(channels, samples) = (1, 2)` input,
`predict` does not return a tensor of the same shape as the input — the input
is normalized to 3-D first and `y = np.zeros(data.shape)` is allocated after
that, so the returned array has shape `(1, 1, 2)`, not `(1, 2)`. -/
theorem c3_counterexample :
    arrShape (predict 1 wCoefHalf wData2) ≠ dataShape wData2 := by
  decide

/-- Claim C3 (amended): `predict` returns a tensor of the shape of the 3-D
normalized input — equal to the input shape for rank-3 input, and with a
leading trial axis of length 1 prepended for rank-2 input — whose value at
`(s, i, n)` is zero for the first `p` samples (`n < p`, and outside the array
extent) and `∑ k=1..p, coef_block(k) · data[:, :, n-k]` at `p ≤ n < l`. -/
theorem c3_predict_amended (coefCols : ℕ) (coef : ℕ → ℕ → ℚ) (d : VarData) :
    arrShape (predict coefCols coef d)
      = [(atleast3d d).d0, (atleast3d d).d1, (atleast3d d).d2]
    ∧ (∀ t0 m0 l0 v0, d = VarData.three t0 m0 l0 v0 →
        arrShape (predict coefCols coef d) = dataShape d)
    ∧ (∀ m0 l0 v0, d = VarData.two m0 l0 v0 →
        arrShape (predict coefCols coef d) = 1 :: dataShape d)
    ∧ (∀ s i nn : ℕ,
        (predict coefCols coef d).val s i nn
          = predictClosed (atleast3d d).d0 (atleast3d d).d1 (atleast3d d).d2
              (coefCols / (atleast3d d).d1) coef (atleast3d d).val s i nn) := by
  refine ⟨rfl, ?_, ?_, ?_⟩
  · intro t0 m0 l0 v0 hd
    subst hd
    rfl
  · intro m0 l0 v0 hd
    subst hd
    rfl
  · intro s i nn
    have hval : (predict coefCols coef d).val
        = (if ((atleast3d d).d0 : ℤ)
              > ((atleast3d d).d2 : ℤ) - ((coefCols / (atleast3d d).d1 : ℕ) : ℤ)
           then predictB1 (atleast3d d).d0 (atleast3d d).d1 (atleast3d d).d2
                  (coefCols / (atleast3d d).d1) coef (atleast3d d).val
           else predictB2 (atleast3d d).d0 (atleast3d d).d1 (atleast3d d).d2
                  (coefCols / (atleast3d d).d1) coef (atleast3d d).val) := rfl
    rw [hval]
    by_cases hb : ((atleast3d d).d0 : ℤ)
        > ((atleast3d d).d2 : ℤ) - ((coefCols / (atleast3d d).d1 : ℕ) : ℤ)
    · rw [if_pos hb]
      exact predictB1_apply _ _ _ _ coef _ s i nn
    · rw [if_neg hb]
      exact predictB2_apply _ _ _ _ coef _ s i nn

/-- Claim C3 witness: the amended theorem at the rank-3 input `wData3` with a
`1 × 1` order-1 model. -/
theorem c3_witness :
    arrShape (predict 1 wCoefHalf wData3) = dataShape wData3
    ∧ (predict 1 wCoefHalf wData3).val 0 0 1
      = predictClosed 1 1 3 1 wCoefHalf (atleast3d wData3).val 0 0 1 := by
  have h := c3_predict_amended 1 wCoefHalf wData3
  exact ⟨h.2.1 1 1 3 _ rfl, h.2.2.2 0 0 1⟩

/-- Claim C6: the two loop strategies inside `predict` compute identical
outputs (stated on the domain `p ≤ l` where the second strategy's slice
arithmetic is non-degenerate; the selection heuristic `t > l - p` only picks
the second strategy when `l ≥ p + t`, inside that domain), and the branch
selection never changes the returned values: `predict` always agrees with the
first strategy. -/
theorem c6_predict_branch_equiv (t mch l p : ℕ) (coef : ℕ → ℕ → ℚ)
    (v : Tensor3) (_hpl : p ≤ l) (coefCols : ℕ) (d : VarData) (s i nn : ℕ) :
    predictB1 t mch l p coef v s i nn = predictB2 t mch l p coef v s i nn
    ∧ (predict coefCols coef d).val s i nn
        = predictB1 (atleast3d d).d0 (atleast3d d).d1 (atleast3d d).d2
            (coefCols / (atleast3d d).d1) coef (atleast3d d).val s i nn := by
  constructor
  · rw [predictB1_apply, predictB2_apply]
  · have hval : (predict coefCols coef d).val
        = (if ((atleast3d d).d0 : ℤ)
              > ((atleast3d d).d2 : ℤ) - ((coefCols / (atleast3d d).d1 : ℕ) : ℤ)
           then predictB1 (atleast3d d).d0 (atleast3d d).d1 (atleast3d d).d2
                  (coefCols / (atleast3d d).d1) coef (atleast3d d).val
           else predictB2 (atleast3d d).d0 (atleast3d d).d1 (atleast3d d).d2
                  (coefCols / (atleast3d d).d1) coef (atleast3d d).val) := rfl
    rw [hval]
    by_cases hb : ((atleast3d d).d0 : ℤ)
        > ((atleast3d d).d2 : ℤ) - ((coefCols / (atleast3d d).d1 : ℕ) : ℤ)
    · rw [if_pos hb]
    · rw [if_neg hb, predictB2_apply, predictB1_apply]

/-- Claim C6 witness: both strategies and the selector agree at a concrete
`1 × 1` order-1 model on a `(1, 1, 3)` input. -/
theorem c6_witness :
    predictB1 1 1 3 1 wCoefHalf (atleast3d wData3).val 0 0 1
      = predictB2 1 1 3 1 wCoefHalf (atleast3d wData3).val 0 0 1
    ∧ (predict 1 wCoefHalf wData3).val 0 0 1
      = predictB1 1 1 3 1 wCoefHalf (atleast3d wData3).val 0 0 1 :=
  c6_predict_branch_equiv 1 1 3 1 wCoefHalf (atleast3d wData3).val (by decide)
    1 wData3 0 0 1

/-- Claim C9: `simulate` generates `10·p` extra burn-in samples per trial and
discards them, so the returned array has shape
`(trials, channels, requested samples)`; every retained sample equals the
fresh noise draw taken at its (absolute) step plus
`∑ k=1..p, coef_block(k) ·` (the sample `k` steps earlier in the underlying
per-trial process, burn-in included). -/
theorem c9_simulate (mch coefCols : ℕ) (coef : ℕ → ℕ → ℚ) (lt : ℕ ⊕ ℕ × ℕ)
    (noiseD : ℕ → ℕ → ℚ) (s ch nr : ℕ) (hnr : nr < simLen lt) :
    arrShape (simulate mch coefCols coef lt noiseD)
      = [simTrials lt, mch, simLen lt]
    ∧ (simulate mch coefCols coef lt noiseD).val s ch nr
        = noiseD (s * (simLen lt + 10 * (coefCols / mch))
              + (nr + 10 * (coefCols / mch))) ch
          + ∑ k ∈ Finset.range (coefCols / mch), ∑ j ∈ Finset.range mch,
              coef ch (k + j * (coefCols / mch))
                * simTrialY mch (coefCols / mch) coef
                    (fun ii cc => noiseD (s * (simLen lt + 10 * (coefCols / mch)) + ii) cc)
                    (simLen lt + 10 * (coefCols / mch))
                    (nr + 10 * (coefCols / mch) - (k + 1)) j := by
  constructor
  · show [simTrials lt, mch, simLen lt + 10 * (coefCols / mch) - 10 * (coefCols / mch)]
      = [simTrials lt, mch, simLen lt]
    rw [Nat.add_sub_cancel]
  · have hval : (simulate mch coefCols coef lt noiseD).val s ch nr
        = simTrialY mch (coefCols / mch) coef
            (fun ii cc => noiseD (s * (simLen lt + 10 * (coefCols / mch)) + ii) cc)
            (simLen lt + 10 * (coefCols / mch)) (nr + 10 * (coefCols / mch)) ch := rfl
    rw [hval]
    unfold simTrialY
    have hmain := simMain_value mch (coefCols / mch) coef
      (fun ii cc => noiseD (s * (simLen lt + 10 * (coefCols / mch)) + ii) cc)
      (simLen lt + 10 * (coefCols / mch) - coefCols / mch) (coefCols / mch)
      ((List.range (coefCols / mch)).foldl
        (simUpdWarm fun ii cc => noiseD (s * (simLen lt + 10 * (coefCols / mch)) + ii) cc)
        fun _ _ => 0)
      (nr + 10 * (coefCols / mch)) ch (le_refl _) (by omega) (by omega)
    rw [hmain]
    rfl

/-- Claim C9 witness: one trial of two samples from a `1 × 1` order-1 model
with unit noise (`n = 2 + 10·1` total steps, the first `10` discarded). -/
theorem c9_witness :
    arrShape (simulate 1 1 wCoefHalf (Sum.inl 2) wNoise) = [1, 1, 2]
    ∧ (simulate 1 1 wCoefHalf (Sum.inl 2) wNoise).val 0 0 0
        = wNoise (0 * (2 + 10 * 1) + (0 + 10 * 1)) 0
          + ∑ k ∈ Finset.range 1, ∑ j ∈ Finset.range 1,
              wCoefHalf 0 (k + j * 1)
                * simTrialY 1 1 wCoefHalf
                    (fun ii cc => wNoise (0 * (2 + 10 * 1) + ii) cc) (2 + 10 * 1)
                    (0 + 10 * 1 - (k + 1)) j :=
  c9_simulate 1 1 wCoefHalf (Sum.inl 2) wNoise 0 0 0 (by decide)

/-- Closed form of the cumulative-sum stage of `_calc_q_statistic` at a lag
`l ≤ h`. -/
theorem qCum_closed (mch : ℕ) (acmf : ℕ → Matrix (Fin mch) (Fin mch) ℚ)
    (h nt : ℕ) (r : Fin 3) (l : ℕ) (hlh : l ≤ h) :
    qCum mch acmf h nt r l
      = ∑ j ∈ Finset.Icc 1 l,
          (if r = 1 then qTmp mch acmf j / ((nt : ℚ) - (j : ℚ)) else qTmp mch acmf j)
            * (nt : ℚ) * (if r = 1 then (nt : ℚ) + 2 else 1) := by
  unfold qCum qScaled qStage
  have hterm : ∀ j : ℕ,
      (if 1 ≤ j ∧ j ≤ h then
        (if r = 1 then qTmp mch acmf j / ((nt : ℚ) - (j : ℚ)) else qTmp mch acmf j)
      else 0) * (nt : ℚ) * (if r = 1 then (nt : ℚ) + 2 else 1)
      = (if 1 ≤ j ∧ j ≤ h then
          (if r = 1 then qTmp mch acmf j / ((nt : ℚ) - (j : ℚ)) else qTmp mch acmf j)
            * (nt : ℚ) * (if r = 1 then (nt : ℚ) + 2 else 1)
        else 0) := by
    intro j
    by_cases hg : 1 ≤ j ∧ j ≤ h
    · rw [if_pos hg, if_pos hg]
    · rw [if_neg hg, if_neg hg, zero_mul, zero_mul]
  rw [Finset.sum_congr rfl fun j _ => hterm j]
  exact sum_range_guard
    (fun j =>
      (if r = 1 then qTmp mch acmf j / ((nt : ℚ) - (j : ℚ)) else qTmp mch acmf j)
        * (nt : ℚ) * (if r = 1 then (nt : ℚ) + 2 else 1)) h l hlh

/-- Claim C5: at every lag `1 ≤ l ≤ h` the three Portmanteau series are the
cumulative sums of the per-lag contributions: Box-Pierce is
`nt · ∑ j ≤ l, tmp(j)`, Ljung-Box is `nt·(nt+2) · ∑ j ≤ l, tmp(j)/(nt-j)`,
Li-McLeod is Box-Pierce plus the bias correction `m²·l·(l+1)/(2·nt)` — which
accrues cumulatively, per-lag increment `m²·j/nt` — and the per-lag trace term
is `tr(clᵀ · c0⁻¹ · cl · c0⁻¹)`. -/
theorem c5_calc_q_statistic (mch : ℕ)
    (acmf : ℕ → Matrix (Fin mch) (Fin mch) ℚ) (h nt l : ℕ)
    (hl1 : 1 ≤ l) (hlh : l ≤ h) :
    calc_q_statistic mch acmf h nt 0 l
      = (nt : ℚ) * ∑ j ∈ Finset.Icc 1 l, qTmp mch acmf j
    ∧ calc_q_statistic mch acmf h nt 1 l
      = (nt : ℚ) * ((nt : ℚ) + 2)
          * ∑ j ∈ Finset.Icc 1 l, qTmp mch acmf j / ((nt : ℚ) - (j : ℚ))
    ∧ calc_q_statistic mch acmf h nt 2 l
      = calc_q_statistic mch acmf h nt 0 l
        + (mch : ℚ) * (mch : ℚ) * (l : ℚ) * ((l : ℚ) + 1) / (2 * (nt : ℚ))
    ∧ calc_q_statistic mch acmf h nt 2 l
      = ∑ j ∈ Finset.Icc 1 l,
          ((nt : ℚ) * qTmp mch acmf j
            + (mch : ℚ) * (mch : ℚ) * (j : ℚ) / (nt : ℚ))
    ∧ (∀ j : ℕ, qTmp mch acmf j
        = ((acmf j)ᵀ * qInv (acmf 0) * acmf j * qInv (acmf 0)).trace) := by
  have hif0 : ∀ a b : ℚ, (if (0 : Fin 3) = 1 then a else b) = b :=
    fun a b => if_neg (by decide)
  have hif1 : ∀ a b : ℚ, (if (1 : Fin 3) = 1 then a else b) = a :=
    fun a b => if_pos rfl
  have hq0 : calc_q_statistic mch acmf h nt 0 l
      = (nt : ℚ) * ∑ j ∈ Finset.Icc 1 l, qTmp mch acmf j := by
    unfold calc_q_statistic
    rw [if_neg (fun hcon => absurd hcon.1 (by decide))]
    rw [qCum_closed mch acmf h nt 0 l hlh]
    rw [Finset.sum_congr rfl fun j _ => by rw [hif0, hif0, mul_one]]
    rw [← Finset.sum_mul, mul_comm]
  have hq2 : calc_q_statistic mch acmf h nt 2 l
      = calc_q_statistic mch acmf h nt 0 l
        + (mch : ℚ) * (mch : ℚ) * (l : ℚ) * ((l : ℚ) + 1) / (2 * (nt : ℚ)) := by
    unfold calc_q_statistic
    rw [if_pos ⟨rfl, hl1, hlh⟩, if_neg (fun hcon => absurd hcon.1 (by decide))]
  refine ⟨hq0, ?_, hq2, ?_, ?_⟩
  · unfold calc_q_statistic
    rw [if_neg (fun hcon => absurd hcon.1 (by decide))]
    rw [qCum_closed mch acmf h nt 1 l hlh]
    rw [Finset.sum_congr rfl fun j _ => by rw [hif1, hif1]]
    rw [← Finset.sum_mul, ← Finset.sum_mul]
    ring
  · rw [hq2, hq0, Finset.mul_sum]
    have hgauss : ∑ j ∈ Finset.Icc 1 l,
        (mch : ℚ) * (mch : ℚ) * (j : ℚ) / (nt : ℚ)
        = (mch : ℚ) * (mch : ℚ) * (l : ℚ) * ((l : ℚ) + 1) / (2 * (nt : ℚ)) := by
      have hstep : ∀ j ∈ Finset.Icc 1 l,
          (mch : ℚ) * (mch : ℚ) * (j : ℚ) / (nt : ℚ)
            = ((mch : ℚ) * (mch : ℚ) / (nt : ℚ)) * (j : ℚ) := by
        intro j _
        ring
      rw [Finset.sum_congr rfl hstep, ← Finset.mul_sum, sum_Icc_cast]
      rw [div_eq_mul_inv, div_eq_mul_inv, div_eq_mul_inv, mul_inv]
      ring
    rw [Finset.sum_add_distrib, hgauss]
  · intro j
    unfold qTmp
    rw [Matrix.trace_mul_comm]
    rw [Matrix.mul_assoc (qInv (acmf 0)) ((acmf j)ᵀ) (qInv (acmf 0) * acmf j)]
    rw [Matrix.trace_mul_comm]
    rw [← Matrix.mul_assoc ((acmf j)ᵀ) (qInv (acmf 0)) (acmf j)]

/-- Claim C5 witness: the closed forms at `m = 1`, constant unit
autocovariances, `h = l = 1`, `nt = 5`. -/
theorem c5_witness :
    calc_q_statistic 1 wAcm1 1 5 0 1
      = ((5 : ℕ) : ℚ) * ∑ j ∈ Finset.Icc 1 1, qTmp 1 wAcm1 j
    ∧ calc_q_statistic 1 wAcm1 1 5 1 1
      = ((5 : ℕ) : ℚ) * (((5 : ℕ) : ℚ) + 2)
          * ∑ j ∈ Finset.Icc 1 1, qTmp 1 wAcm1 j / (((5 : ℕ) : ℚ) - (j : ℚ))
    ∧ calc_q_statistic 1 wAcm1 1 5 2 1
      = calc_q_statistic 1 wAcm1 1 5 0 1
        + ((1 : ℕ) : ℚ) * ((1 : ℕ) : ℚ) * ((1 : ℕ) : ℚ) * (((1 : ℕ) : ℚ) + 1)
            / (2 * ((5 : ℕ) : ℚ))
    ∧ calc_q_statistic 1 wAcm1 1 5 2 1
      = ∑ j ∈ Finset.Icc 1 1,
          (((5 : ℕ) : ℚ) * qTmp 1 wAcm1 j
            + ((1 : ℕ) : ℚ) * ((1 : ℕ) : ℚ) * (j : ℚ) / ((5 : ℕ) : ℚ))
    ∧ (∀ j : ℕ, qTmp 1 wAcm1 j
        = ((wAcm1 j)ᵀ * qInv (wAcm1 0) * wAcm1 j * qInv (wAcm1 0)).trace) :=
  c5_calc_q_statistic 1 wAcm1 1 5 1 le_rfl le_rfl

/-- Claim C4: the whiteness-test p-value is exactly the count of surrogate
Li-McLeod statistics `≥` the observed one, divided by `repeats`; for any
positive `repeats` it is a multiple of `1/repeats` lying in `[0, 1]` (there is
no "insufficient repeats" failure — small positive values merely coarsen the
resolution). -/
theorem c4_test_whiteness_pvalue (t mch n0 h p repeats : ℕ) (data : Tensor3)
    (perms : ℕ → ℕ → ℕ)
    (acmExt : Tensor3 → ℕ → Matrix (Fin mch) (Fin mch) ℚ)
    (hrep : 1 ≤ repeats) :
    test_whiteness t mch n0 h p repeats data perms acmExt
      = (whitenessCount t mch n0 h p repeats data perms acmExt : ℚ) / (repeats : ℚ)
    ∧ whitenessCount t mch n0 h p repeats data perms acmExt ≤ repeats
    ∧ 0 ≤ test_whiteness t mch n0 h p repeats data perms acmExt
    ∧ test_whiteness t mch n0 h p repeats data perms acmExt ≤ 1
    ∧ test_whiteness t mch n0 h p repeats data perms acmExt * (repeats : ℚ)
      = (whitenessCount t mch n0 h p repeats data perms acmExt : ℚ) := by
  have hcard : whitenessCount t mch n0 h p repeats data perms acmExt ≤ repeats := by
    have h1 := Finset.card_filter_le (Finset.range repeats)
      (fun i =>
        calc_q_statistic mch (acmExt (trimP p data)) h ((n0 - p - p) * t) 2 h
          ≤ calc_q_statistic mch (acmExt (permuteTime (perms i) (trimP p data))) h
              ((n0 - p - p) * t) 2 h)
    rw [Finset.card_range] at h1
    exact h1
  have hrepQ : (0 : ℚ) < (repeats : ℚ) := by
    exact_mod_cast Nat.lt_of_lt_of_le Nat.zero_lt_one hrep
  unfold test_whiteness
  refine ⟨rfl, hcard, ?_, ?_, ?_⟩
  · exact div_nonneg (Nat.cast_nonneg _) (Nat.cast_nonneg _)
  · rw [div_le_one hrepQ]
    exact_mod_cast hcard
  · rw [div_mul_cancel₀]
    exact ne_of_gt hrepQ

/-- Claim C4 witness: concrete single-repeat run (`repeats = 1`,
identity permutations, constant unit autocovariance). -/
theorem c4_witness :
    test_whiteness 1 1 1 1 0 1 wZeroT (fun _ j => j) wAcmExt
      = (whitenessCount 1 1 1 1 0 1 wZeroT (fun _ j => j) wAcmExt : ℚ) / ((1 : ℕ) : ℚ)
    ∧ whitenessCount 1 1 1 1 0 1 wZeroT (fun _ j => j) wAcmExt ≤ 1
    ∧ 0 ≤ test_whiteness 1 1 1 1 0 1 wZeroT (fun _ j => j) wAcmExt
    ∧ test_whiteness 1 1 1 1 0 1 wZeroT (fun _ j => j) wAcmExt ≤ 1
    ∧ test_whiteness 1 1 1 1 0 1 wZeroT (fun _ j => j) wAcmExt * ((1 : ℕ) : ℚ)
      = (whitenessCount 1 1 1 1 0 1 wZeroT (fun _ j => j) wAcmExt : ℚ) :=
  c4_test_whiteness_pvalue 1 1 1 1 0 1 wZeroT (fun _ j => j) wAcmExt le_rfl
